import Mathlib

/-!
# Classical Gaussian elimination (`Chapter24/chapter.24.6.3.cpp`)

A shallow embedding of the solver of `chapter.24.6.3.cpp` in exact arithmetic.

* A `Matrix n` is a dense `n × n` array of rationals, a `Vector n` a dense array of
  `n` rationals (`Numeric_lib::Matrix<double,2>` and `Numeric_lib::Matrix<double,1>`
  with `double` replaced by `ℚ`).  The dimension `n` is what `A.dim1()` returns; the
  matrix is square and `b` has `n` elements.
* The two exceptions of the program, `Elim_failure` and `Back_subst_failure`, are the
  first two constructors of `Failure`; each carries the row number that the program
  prints into the message.  A thrown exception is an `Except.error`.
* Division is a partial operation: `divide a d` is an error `Zero_divide` when `d = 0`.
  `Zero_divide` is not an exception of the program, it marks a division whose divisor
  is zero.
* In-place mutation of `A` and `b` is explicit state passing of the pair `(A, b)`.
* A `for` loop is the function giving the state after its first `m` passes.
-/

namespace Chapter24

/-- The type `Matrix` of the program, for a square matrix of dimension `n`. -/
abbrev Matrix (n : ℕ) : Type := Fin n → Fin n → ℚ

/-- The type `Vector` of the program, for a vector of `n` elements. -/
abbrev Vector (n : ℕ) : Type := Fin n → ℚ

/-- The pair `(A, b)` that elimination mutates in place. -/
abbrev System (n : ℕ) : Type := Matrix n × Vector n

/-- The ways a call can fail.  `Elim_failure j` is the exception
`Elim_failure("Elimination failure in row " + to_string(j))`, `Back_subst_failure i` is
`Back_subst_failure("Back substitution failure in row " + to_string(i))`, and
`Zero_divide` marks a division by zero. -/
inductive Failure where
  | Elim_failure (row : ℕ)
  | Back_subst_failure (row : ℕ)
  | Zero_divide
  deriving DecidableEq

/-- The division `a / d` of the program as a partial operation. -/
def divide (a d : ℚ) : Except Failure ℚ :=
  if d = 0 then .error .Zero_divide else .ok (a / d)

/-- Modelled from the spec: `scale_and_add` of `Matrix.h`, which is not among the
sources.  `scale_and_add(a, c, b)` is the scaled add `a*c + b`, element by element, so
that `scale_and_add(A[j].slice(j), -mult, A[i].slice(j))` holds
`A(i,k) - mult * A(j,k)` at every column `k` of the slice. -/
def scale_and_add {n : ℕ} (a : Vector n) (c : ℚ) (b : Vector n) : Vector n :=
  fun k => a k * c + b k

/-- Modelled from the spec: assignment through the row slice `A[i].slice(j)` of
`Matrix.h`, which is not among the sources.  The slice is a view of the columns
`j, ..., n-1` of row `i`: assigning `r` through it overwrites these entries and no
other. -/
def assign_slice {n : ℕ} (A : Matrix n) (i : Fin n) (j : ℕ) (r : Vector n) : Matrix n :=
  fun p k => if p = i ∧ j ≤ k.val then r k else A p k

/-- Modelled from the spec: `dot_product` of `Matrix.h`, which is not among the
sources, on two whole rows. -/
def dot_product {n : ℕ} (a b : Vector n) : ℚ :=
  ∑ k : Fin n, a k * b k

/-- Modelled from the spec: `dot_product(a.slice(s), b.slice(s))`, the dot product of
the entries of `a` and `b` in the columns `s, ..., n-1`; it is `0` when that range is
empty. -/
def dot_product_slice {n : ℕ} (s : ℕ) (a b : Vector n) : ℚ :=
  ∑ k : Fin n, if s ≤ k.val then a k * b k else 0

/-- The body of the inner loop of `classical_elimination` for row `i`:
```
const double mult = A(i, j) / pivot;
A[i].slice(j) = scale_and_add(A[j].slice(j), -mult, A[i].slice(j));
b(i) -= mult * b(j);
```
-/
def eliminate_row {n : ℕ} (j : Fin n) (pivot : ℚ) (i : Fin n) (S : System n) :
    Except Failure (System n) :=
  match divide (S.1 i j) pivot with
  | .error e => .error e
  | .ok mult =>
    .ok (assign_slice S.1 i j.val (scale_and_add (S.1 j) (-mult) (S.1 i)),
         Function.update S.2 i (S.2 i - mult * S.2 j))

/-- The state after the first `m` passes of the inner loop
`for (Index i = j+1; i<n; ++i)` of `classical_elimination`, started in state `S`:
pass `m+1` is the body at `i = j+1+m`, run when `i < n`. -/
def eliminate_rows {n : ℕ} (j : Fin n) (pivot : ℚ) (S : System n) :
    ℕ → Except Failure (System n)
  | 0 => .ok S
  | m + 1 =>
    match eliminate_rows j pivot S m with
    | .error e => .error e
    | .ok S' =>
      if h : j.val + 1 + m < n then eliminate_row j pivot ⟨j.val + 1 + m, h⟩ S'
      else .ok S'

/-- The body of the outer loop of `classical_elimination` for column `j`:
```
const double pivot = A(j, j);
if (pivot == 0) throw Elim_failure("Elimination failure in row " + to_string(j));
for (Index i = j+1; i<n; ++i) { ... }
```
The inner loop makes `n - (j+1)` passes. -/
def eliminate_column {n : ℕ} (j : Fin n) (S : System n) : Except Failure (System n) :=
  let pivot := S.1 j j
  if pivot = 0 then .error (.Elim_failure j.val)
  else eliminate_rows j pivot S (n - (j.val + 1))

/-- The state after the first `m` passes of the outer loop
`for (Index j = 0; j<n-1; ++j)` of `classical_elimination`, started in state `S`:
pass `m+1` is the body at `j = m`, run when `j < n-1`. -/
def eliminate_columns {n : ℕ} (S : System n) : ℕ → Except Failure (System n)
  | 0 => .ok S
  | m + 1 =>
    match eliminate_columns S m with
    | .error e => .error e
    | .ok S' =>
      if h : m + 1 < n then eliminate_column ⟨m, Nat.lt_of_succ_lt h⟩ S'
      else .ok S'

/-- The function `classical_elimination(Matrix& A, Vector& b)`: the outer loop makes
`n-1` passes; the result is the mutated pair `(A, b)`. -/
def classical_elimination {n : ℕ} (A : Matrix n) (b : Vector n) :
    Except Failure (System n) :=
  eliminate_columns (A, b) (n - 1)

/-- The body of the loop of `back_substitution` for row `i`:
```
double s = b(i)-dot_product(A[i].slice(i+1),x.slice(i+1));
if (double m = A(i, i)) x(i) = s / m;
else throw Back_subst_failure("Back substitution failure in row " + to_string(i));
```
-/
def back_substitute_row {n : ℕ} (A : Matrix n) (b : Vector n) (i : Fin n)
    (x : Vector n) : Except Failure (Vector n) :=
  let s := b i - dot_product_slice (i.val + 1) (A i) x
  let m := A i i
  if m ≠ 0 then
    match divide s m with
    | .error e => .error e
    | .ok q => .ok (Function.update x i q)
  else .error (.Back_subst_failure i.val)

/-- The vector `x` after the first `m` passes of the loop
`for (Index i = n - 1; i >= 0; --i)` of `back_substitution`, started from the
zero vector `Vector x(n)`: pass `m+1` is the body at `i = n-1-m`, run when `i >= 0`. -/
def back_substitute_rows {n : ℕ} (A : Matrix n) (b : Vector n) :
    ℕ → Except Failure (Vector n)
  | 0 => .ok (fun _ => 0)
  | m + 1 =>
    match back_substitute_rows A b m with
    | .error e => .error e
    | .ok x =>
      if h : m < n then back_substitute_row A b ⟨n - 1 - m, by omega⟩ x
      else .ok x

/-- The function `back_substitution(const Matrix& A, const Vector& b)`: the loop
makes `n` passes. -/
def back_substitution {n : ℕ} (A : Matrix n) (b : Vector n) : Except Failure (Vector n) :=
  back_substitute_rows A b n

/-- The function `classical_gaussian_elimination(Matrix A, Vector b)`:
```
classical_elimination(A, b);
return back_substitution(A, b);
```
`A` and `b` are passed by value, so the caller's matrix and vector stay as they were. -/
def classical_gaussian_elimination {n : ℕ} (A : Matrix n) (b : Vector n) :
    Except Failure (Vector n) :=
  match classical_elimination A b with
  | .error e => .error e
  | .ok S => back_substitution S.1 S.2

/-- The function `operator*(const Matrix& m, const Vector& u)`:
`v(i) = dot_product(m[i], u)` for every row `i`. -/
def operator_mul {n : ℕ} (m : Matrix n) (u : Vector n) : Vector n :=
  fun i => dot_product (m i) u

/-- Equality of two outcomes is decidable whenever equality of the results is. -/
instance decEqOutcome {α : Type} [DecidableEq α] : DecidableEq (Except Failure α)
  | .ok x, .ok y => decidable_of_iff (x = y) (by simp)
  | .error e, .error f => decidable_of_iff (e = f) (by simp)
  | .ok _, .error _ => isFalse (by simp)
  | .error _, .ok _ => isFalse (by simp)

/-- The state after the first `m` passes of the inner loop for column `j`, in closed
form: the rows `j+1, ..., j+m` have had `A(r,j)/pivot` times row `j` subtracted, in
the columns from `j` on, and the same for `b`. -/
def rows_after {n : ℕ} (j : Fin n) (pivot : ℚ) (S : System n) (m : ℕ) : System n :=
  (fun r k => if j.val < r.val ∧ r.val ≤ j.val + m ∧ j.val ≤ k.val
      then S.1 r k - S.1 r j / pivot * S.1 j k else S.1 r k,
   fun r => if j.val < r.val ∧ r.val ≤ j.val + m
      then S.2 r - S.1 r j / pivot * S.2 j else S.2 r)

/-- The state after a whole pass of the outer loop for column `j`, in closed form. -/
def column_step {n : ℕ} (j : Fin n) (S : System n) : System n :=
  (fun r k => if j.val < r.val ∧ j.val ≤ k.val
      then S.1 r k - S.1 r j / S.1 j j * S.1 j k else S.1 r k,
   fun r => if j.val < r.val then S.2 r - S.1 r j / S.1 j j * S.2 j else S.2 r)

/-- The matrix is upper-triangular: every entry below the diagonal is zero. -/
def upper_triangular {n : ℕ} (A : Matrix n) : Prop :=
  ∀ i j : Fin n, j.val < i.val → A i j = 0

/-- The columns before `m` are zero below the diagonal. -/
def zero_below {n : ℕ} (A : Matrix n) (m : ℕ) : Prop :=
  ∀ i c : Fin n, c.val < i.val → c.val < m → A i c = 0

/-- The matrix is strictly diagonally dominant by rows: in every row the absolute
value of the diagonal entry exceeds the sum of the absolute values of the others. -/
def strictly_diagonally_dominant {n : ℕ} (A : Matrix n) : Prop :=
  ∀ i : Fin n, (∑ k in Finset.univ.filter (fun k : Fin n => k ≠ i), |A i k|) < |A i i|

/-- The rows from `m` on are strictly diagonally dominant within the columns from
`m` on. -/
def dominant_from {n : ℕ} (A : Matrix n) (m : ℕ) : Prop :=
  ∀ r : Fin n, m ≤ r.val →
    (∑ k : Fin n, if m ≤ k.val ∧ k ≠ r then |A r k| else 0) < |A r r|

/-- The rows `j+1, ..., n-1` that the inner loop of `classical_elimination` visits for
column `j`, in the increasing order of `for (Index i = j+1; i<n; ++i)`. -/
def rows_below {n : ℕ} (j : Fin n) : List (Fin n) :=
  (List.finRange n).filter (fun i => j.val < i.val)

/-- The row updates of the inner loop for column `j` applied in the order of the list
`rows`, first the head of the list, instead of the increasing order of the loop: the
same body `eliminate_row`, run once for every row of the list. -/
def eliminate_rows_in_order {n : ℕ} (j : Fin n) (pivot : ℚ) (S : System n) :
    List (Fin n) → Except Failure (System n)
  | [] => .ok S
  | i :: rest =>
    match eliminate_row j pivot i S with
    | .error e => .error e
    | .ok S' => eliminate_rows_in_order j pivot S' rest

/-- The leading principal minor of order `k` of `A`: the determinant of the matrix of
the first `k` rows and the first `k` columns. -/
def leading_minor {n : ℕ} (A : Matrix n) (k : ℕ) (hk : k ≤ n) : ℚ :=
  Matrix.det (Matrix.of fun i c : Fin k => A (Fin.castLE hk i) (Fin.castLE hk c))

end Chapter24

namespace Chapter24

/-! ## Division -/

theorem divide_of_ne (a : ℚ) {d : ℚ} (hd : d ≠ 0) : divide a d = .ok (a / d) := by
  simp [divide, hd]

theorem divide_zero (a : ℚ) : divide a 0 = .error .Zero_divide := by
  simp [divide]

/-! ## The inner loop of elimination -/

/-- Without the test of the pivot the inner loop would divide by zero: started with a
zero pivot, its first pass is a `Zero_divide`. -/
theorem eliminate_rows_zero_pivot {n : ℕ} (j : Fin n) (S : System n) (h : j.val + 1 < n) :
    eliminate_rows j 0 S 1 = .error .Zero_divide := by
  have h' : j.val + 1 + 0 < n := h
  simp only [eliminate_rows, dif_pos h', eliminate_row, divide_zero]

theorem eliminate_row_of_ne {n : ℕ} (j : Fin n) {pivot : ℚ} (hp : pivot ≠ 0) (i : Fin n)
    (S : System n) :
    eliminate_row j pivot i S =
      .ok (assign_slice S.1 i j.val (scale_and_add (S.1 j) (-(S.1 i j / pivot)) (S.1 i)),
           Function.update S.2 i (S.2 i - S.1 i j / pivot * S.2 j)) := by
  simp [eliminate_row, divide_of_ne _ hp]

theorem rows_after_zero {n : ℕ} (j : Fin n) (pivot : ℚ) (S : System n) :
    rows_after j pivot S 0 = S := by
  have h : ∀ r : Fin n, ¬ (j.val < r.val ∧ r.val ≤ j.val + 0) := by
    intro r; omega
  ext r k
  · simp only [rows_after]
    rw [if_neg]
    intro hh; exact h r ⟨hh.1, hh.2.1⟩
  · simp only [rows_after]
    rw [if_neg (h r)]

theorem eliminate_rows_eq {n : ℕ} (j : Fin n) {pivot : ℚ} (hp : pivot ≠ 0) (S : System n)
    (m : ℕ) : eliminate_rows j pivot S m = .ok (rows_after j pivot S m) := by
  induction m with
  | zero => simp [eliminate_rows, rows_after_zero]
  | succ m ih =>
    simp only [eliminate_rows, ih]
    by_cases h : j.val + 1 + m < n
    · rw [dif_pos h, eliminate_row_of_ne j hp]
      congr 1
      ext r k
      · simp only [rows_after, assign_slice, scale_and_add]
        by_cases hr : r = ⟨j.val + 1 + m, h⟩
        · subst hr
          simp only [true_and]
          split_ifs <;> first | (exfalso; omega) | ring1
        · have hne : r.val ≠ j.val + 1 + m := fun hh => hr (Fin.ext hh)
          simp only [hr, false_and, if_false]
          split_ifs <;> first | (exfalso; omega) | rfl
      · simp only [rows_after]
        by_cases hr : r = ⟨j.val + 1 + m, h⟩
        · subst hr
          simp only [Function.update_same]
          split_ifs <;> first | (exfalso; omega) | rfl
        · have hne : r.val ≠ j.val + 1 + m := fun hh => hr (Fin.ext hh)
          simp only [Function.update_noteq hr]
          split_ifs <;> first | (exfalso; omega) | rfl
    · rw [dif_neg h]
      congr 1
      ext r k
      · have h4 : (j.val < r.val ∧ r.val ≤ j.val + (m + 1) ∧ j.val ≤ k.val) ↔
            (j.val < r.val ∧ r.val ≤ j.val + m ∧ j.val ≤ k.val) := by
          have := r.isLt; omega
        simp only [rows_after, h4]
      · have h4 : (j.val < r.val ∧ r.val ≤ j.val + (m + 1)) ↔
            (j.val < r.val ∧ r.val ≤ j.val + m) := by
          have := r.isLt; omega
        simp only [rows_after, h4]

theorem rows_after_all {n : ℕ} (j : Fin n) (S : System n) :
    rows_after j (S.1 j j) S (n - (j.val + 1)) = column_step j S := by
  ext r k
  · have h4 : (j.val < r.val ∧ r.val ≤ j.val + (n - (j.val + 1)) ∧ j.val ≤ k.val) ↔
        (j.val < r.val ∧ j.val ≤ k.val) := by
      have := r.isLt; omega
    simp only [rows_after, column_step, h4]
  · have h4 : (j.val < r.val ∧ r.val ≤ j.val + (n - (j.val + 1))) ↔ j.val < r.val := by
      have := r.isLt; omega
    simp only [rows_after, column_step, h4]

theorem eliminate_column_eq {n : ℕ} (j : Fin n) (S : System n) :
    eliminate_column j S =
      if S.1 j j = 0 then .error (.Elim_failure j.val) else .ok (column_step j S) := by
  unfold eliminate_column
  by_cases h : S.1 j j = 0
  · simp [h]
  · simp only [h, if_false]
    rw [eliminate_rows_eq j h, rows_after_all]

/-! ## The outer loop of elimination -/

theorem eliminate_columns_succ {n : ℕ} (S : System n) (m : ℕ) (h : m + 1 < n) :
    eliminate_columns S (m + 1) =
      match eliminate_columns S m with
      | .error e => .error e
      | .ok T =>
        if T.1 ⟨m, Nat.lt_of_succ_lt h⟩ ⟨m, Nat.lt_of_succ_lt h⟩ = 0
        then .error (.Elim_failure m)
        else .ok (column_step ⟨m, Nat.lt_of_succ_lt h⟩ T) := by
  simp only [eliminate_columns, dif_pos h, eliminate_column_eq]

/-- An invariant of the outer loop holds of every state the loop reaches. -/
theorem eliminate_columns_invariant {n : ℕ} (P : ℕ → System n → Prop) (S : System n)
    (h0 : P 0 S)
    (hstep : ∀ (m : ℕ) (h : m + 1 < n) (T : System n), P m T →
      T.1 ⟨m, Nat.lt_of_succ_lt h⟩ ⟨m, Nat.lt_of_succ_lt h⟩ ≠ 0 →
      P (m + 1) (column_step ⟨m, Nat.lt_of_succ_lt h⟩ T)) :
    ∀ (m : ℕ) (T : System n), m ≤ n - 1 → eliminate_columns S m = .ok T → P m T := by
  intro m
  induction m with
  | zero =>
    intro T _ hT
    simp only [eliminate_columns, Except.ok.injEq] at hT
    exact hT ▸ h0
  | succ m ih =>
    intro T hm hT
    have h : m + 1 < n := by omega
    rw [eliminate_columns_succ S m h] at hT
    cases hprev : eliminate_columns S m with
    | error e => rw [hprev] at hT; simp at hT
    | ok T' =>
      rw [hprev] at hT
      by_cases hp : T'.1 ⟨m, Nat.lt_of_succ_lt h⟩ ⟨m, Nat.lt_of_succ_lt h⟩ = 0
      · simp [hp] at hT
      · simp only [hp, if_false, Except.ok.injEq] at hT
        exact hT ▸ hstep m h T' (ih T' (by omega) hprev) hp

/-- An invariant of the outer loop that forces every pivot to be nonzero makes the
loop run to its end. -/
theorem eliminate_columns_progress {n : ℕ} (P : ℕ → System n → Prop) (S : System n)
    (h0 : P 0 S)
    (hstep : ∀ (m : ℕ) (h : m + 1 < n) (T : System n), P m T →
      T.1 ⟨m, Nat.lt_of_succ_lt h⟩ ⟨m, Nat.lt_of_succ_lt h⟩ ≠ 0 →
      P (m + 1) (column_step ⟨m, Nat.lt_of_succ_lt h⟩ T))
    (hpivot : ∀ (m : ℕ) (h : m + 1 < n) (T : System n), P m T →
      T.1 ⟨m, Nat.lt_of_succ_lt h⟩ ⟨m, Nat.lt_of_succ_lt h⟩ ≠ 0) :
    ∀ m : ℕ, m ≤ n - 1 → ∃ T, eliminate_columns S m = .ok T ∧ P m T := by
  intro m
  induction m with
  | zero => intro _; exact ⟨S, rfl, h0⟩
  | succ m ih =>
    intro hm
    have h : m + 1 < n := by omega
    obtain ⟨T, hT, hP⟩ := ih (by omega)
    refine ⟨column_step ⟨m, Nat.lt_of_succ_lt h⟩ T, ?_, hstep m h T hP (hpivot m h T hP)⟩
    rw [eliminate_columns_succ S m h, hT]
    simp [hpivot m h T hP]

/-! ## One pass of the outer loop -/

theorem column_step_zero_below {n : ℕ} (j : Fin n) (T : System n)
    (hz : zero_below T.1 j.val) (hp : T.1 j j ≠ 0) :
    zero_below (column_step j T).1 (j.val + 1) := by
  intro i c hci hc
  simp only [column_step]
  by_cases hcj : c.val < j.val
  · rw [if_neg (by omega)]
    exact hz i c hci hcj
  · have hcj2 : c = j := Fin.ext (by omega)
    subst hcj2
    rw [if_pos ⟨hci, le_refl _⟩]
    field_simp

/-- With the columns before `j` already zero below the diagonal, the update of the
slice of row `r` is the update of the whole row. -/
theorem column_step_row {n : ℕ} (j : Fin n) (T : System n) (hz : zero_below T.1 j.val)
    (r k : Fin n) (hr : j.val < r.val) :
    (column_step j T).1 r k = T.1 r k - T.1 r j / T.1 j j * T.1 j k := by
  simp only [column_step]
  by_cases hk : j.val ≤ k.val
  · rw [if_pos ⟨hr, hk⟩]
  · rw [if_neg (by omega), hz j k (by omega) (by omega)]
    ring

theorem column_step_row_le {n : ℕ} (j : Fin n) (T : System n) (r : Fin n)
    (hr : r.val ≤ j.val) : (column_step j T).1 r = T.1 r ∧ (column_step j T).2 r = T.2 r := by
  constructor
  · funext k
    simp only [column_step]
    rw [if_neg (by omega)]
  · simp only [column_step]
    rw [if_neg (by omega)]

theorem column_step_dot {n : ℕ} (j : Fin n) (T : System n) (hz : zero_below T.1 j.val)
    (r : Fin n) (hr : j.val < r.val) (x : Vector n) :
    dot_product ((column_step j T).1 r) x =
      dot_product (T.1 r) x - T.1 r j / T.1 j j * dot_product (T.1 j) x := by
  simp only [dot_product]
  rw [Finset.mul_sum, ← Finset.sum_sub_distrib]
  refine Finset.sum_congr rfl (fun k _ => ?_)
  rw [column_step_row j T hz r k hr]
  ring

theorem column_step_solution {n : ℕ} (j : Fin n) (T : System n)
    (hz : zero_below T.1 j.val) (x : Vector n) :
    operator_mul T.1 x = T.2 ↔
      operator_mul (column_step j T).1 x = (column_step j T).2 := by
  constructor
  · intro h
    funext r
    have hr := congrFun h r
    have hj := congrFun h j
    simp only [operator_mul] at hr hj ⊢
    by_cases hjr : j.val < r.val
    · rw [column_step_dot j T hz r hjr x, hr, hj]
      simp only [column_step]
      rw [if_pos hjr]
    · rw [(column_step_row_le j T r (by omega)).1, (column_step_row_le j T r (by omega)).2]
      exact hr
  · intro h
    have hj := congrFun h j
    simp only [operator_mul] at hj
    rw [(column_step_row_le j T j (le_refl _)).1, (column_step_row_le j T j (le_refl _)).2] at hj
    funext r
    have hr := congrFun h r
    simp only [operator_mul] at hr ⊢
    by_cases hjr : j.val < r.val
    · rw [column_step_dot j T hz r hjr x, hj] at hr
      simp only [column_step] at hr
      rw [if_pos hjr] at hr
      linarith
    · rw [(column_step_row_le j T r (by omega)).1, (column_step_row_le j T r (by omega)).2]
        at hr
      exact hr

/-- What elimination has established after `m` passes of the outer loop. -/
theorem eliminate_columns_spec {n : ℕ} (S : System n) (m : ℕ) (T : System n)
    (hm : m ≤ n - 1) (hT : eliminate_columns S m = .ok T) :
    zero_below T.1 m ∧
    (∀ r : Fin n, r.val < m → T.1 r r ≠ 0) ∧
    (∀ x : Vector n, operator_mul S.1 x = S.2 ↔ operator_mul T.1 x = T.2) := by
  refine eliminate_columns_invariant
    (fun m T => zero_below T.1 m ∧ (∀ r : Fin n, r.val < m → T.1 r r ≠ 0) ∧
      (∀ x : Vector n, operator_mul S.1 x = S.2 ↔ operator_mul T.1 x = T.2))
    S ⟨fun i c _ hc => absurd hc (Nat.not_lt_zero _), fun r hr => absurd hr (Nat.not_lt_zero _),
      fun x => Iff.rfl⟩ ?_ m T hm hT
  intro m h T ⟨hz, hd, hx⟩ hp
  refine ⟨column_step_zero_below ⟨m, Nat.lt_of_succ_lt h⟩ T hz hp, ?_, ?_⟩
  · intro r hr
    rw [(column_step_row_le ⟨m, Nat.lt_of_succ_lt h⟩ T r (Nat.lt_succ_iff.mp hr)).1]
    by_cases hrm : r.val < m
    · exact hd r hrm
    · have : r = ⟨m, Nat.lt_of_succ_lt h⟩ := Fin.ext (by simp; omega)
      rw [this]; exact hp
  · intro x
    exact (hx x).trans (column_step_solution ⟨m, Nat.lt_of_succ_lt h⟩ T hz x)

/-! ## Back substitution -/

theorem dot_product_slice_update {n : ℕ} (s : ℕ) (a x : Vector n) (i : Fin n) (q : ℚ)
    (hi : i.val < s) :
    dot_product_slice s a (Function.update x i q) = dot_product_slice s a x := by
  simp only [dot_product_slice]
  refine Finset.sum_congr rfl (fun k _ => ?_)
  by_cases hk : s ≤ k.val
  · have hne : k ≠ i := fun hh => by rw [hh] at hk; omega
    rw [Function.update_noteq hne]
  · rw [if_neg hk, if_neg hk]

/-- A row with zeros before the diagonal splits into its diagonal term and the dot
product over the slice that follows the diagonal. -/
theorem dot_product_split {n : ℕ} (a x : Vector n) (i : Fin n)
    (ha : ∀ k : Fin n, k.val < i.val → a k = 0) :
    dot_product a x = a i * x i + dot_product_slice (i.val + 1) a x := by
  have hd : a i * x i = ∑ k : Fin n, if i = k then a k * x k else 0 := by
    rw [Finset.sum_ite_eq Finset.univ i (fun k => a k * x k), if_pos (Finset.mem_univ i)]
  simp only [dot_product, dot_product_slice]
  rw [hd, ← Finset.sum_add_distrib]
  refine Finset.sum_congr rfl (fun k _ => ?_)
  by_cases h1 : i = k
  · subst h1
    rw [if_pos rfl, if_neg (by omega)]
    ring
  · rw [if_neg h1]
    by_cases h2 : i.val + 1 ≤ k.val
    · rw [if_pos h2]; ring
    · have hk : k.val < i.val := by
        have : i.val ≠ k.val := fun hh => h1 (Fin.ext hh)
        omega
      rw [if_neg h2, ha k hk]
      ring

theorem back_substitute_row_eq {n : ℕ} (A : Matrix n) (b : Vector n) (i : Fin n)
    (x : Vector n) :
    back_substitute_row A b i x =
      if A i i = 0 then .error (.Back_subst_failure i.val)
      else .ok (Function.update x i ((b i - dot_product_slice (i.val + 1) (A i) x) / A i i)) := by
  unfold back_substitute_row
  by_cases h : A i i = 0
  · simp [h]
  · simp [h, divide_of_ne _ h]

theorem back_substitute_rows_succ {n : ℕ} (A : Matrix n) (b : Vector n) (m : ℕ)
    (h : m < n) :
    back_substitute_rows A b (m + 1) =
      match back_substitute_rows A b m with
      | .error e => .error e
      | .ok x => back_substitute_row A b ⟨n - 1 - m, by omega⟩ x := by
  simp only [back_substitute_rows, dif_pos h]

/-- What back substitution has established after `m` successful passes. -/
theorem back_substitute_rows_spec {n : ℕ} (A : Matrix n) (b : Vector n) :
    ∀ (m : ℕ) (x : Vector n), m ≤ n → back_substitute_rows A b m = .ok x →
      ∀ i : Fin n, n ≤ i.val + m →
        A i i ≠ 0 ∧ x i = (b i - dot_product_slice (i.val + 1) (A i) x) / A i i := by
  intro m
  induction m with
  | zero => intro x _ _ i hi; have := i.isLt; omega
  | succ m ih =>
    intro x hm hx
    have h : m < n := by omega
    have h0 : n - 1 - m < n := by omega
    intro i hi
    rw [back_substitute_rows_succ A b m h] at hx
    cases hprev : back_substitute_rows A b m with
    | error e => rw [hprev] at hx; simp at hx
    | ok y =>
      rw [hprev] at hx
      simp only [back_substitute_row_eq] at hx
      by_cases hp : A ⟨n - 1 - m, h0⟩ ⟨n - 1 - m, h0⟩ = 0
      · simp [hp] at hx
      · simp only [hp, if_false, Except.ok.injEq] at hx
        subst hx
        by_cases hi2 : i = ⟨n - 1 - m, h0⟩
        · subst hi2
          refine ⟨hp, ?_⟩
          rw [Function.update_same, dot_product_slice_update _ _ _ _ _ (by simp)]
        · have hlt : n - 1 - m < i.val := by
            have : i.val ≠ n - 1 - m := fun hh => hi2 (Fin.ext hh)
            omega
          obtain ⟨h1, h2⟩ := ih y (by omega) hprev i (by omega)
          refine ⟨h1, ?_⟩
          rw [Function.update_noteq hi2, dot_product_slice_update _ _ _ _ _ (by simp; omega)]
          exact h2

/-- Back substitution runs to its end when the diagonal entries it meets are nonzero. -/
theorem back_substitute_rows_progress {n : ℕ} (A : Matrix n) (b : Vector n) :
    ∀ m : ℕ, m ≤ n → (∀ i : Fin n, n ≤ i.val + m → A i i ≠ 0) →
      ∃ x, back_substitute_rows A b m = .ok x := by
  intro m
  induction m with
  | zero => intro _ _; exact ⟨_, rfl⟩
  | succ m ih =>
    intro hm hd
    have h : m < n := by omega
    obtain ⟨y, hy⟩ := ih (by omega) (fun i hi => hd i (by omega))
    rw [back_substitute_rows_succ A b m h, hy]
    have hp := hd ⟨n - 1 - m, by omega⟩ (by simp; omega)
    simp only [back_substitute_row_eq, hp, if_false]
    exact ⟨_, rfl⟩

/-- A failure of back substitution is a `Back_subst_failure` at the last row whose
diagonal entry is zero. -/
theorem back_substitute_rows_error {n : ℕ} (A : Matrix n) (b : Vector n) :
    ∀ (m : ℕ) (e : Failure), m ≤ n → back_substitute_rows A b m = .error e →
      ∃ i : Fin n, n ≤ i.val + m ∧ e = .Back_subst_failure i.val ∧ A i i = 0 ∧
        ∀ k : Fin n, i.val < k.val → A k k ≠ 0 := by
  intro m
  induction m with
  | zero => intro e _ he; simp [back_substitute_rows] at he
  | succ m ih =>
    intro e hm he
    have h : m < n := by omega
    rw [back_substitute_rows_succ A b m h] at he
    cases hprev : back_substitute_rows A b m with
    | error e' =>
      rw [hprev] at he
      simp only [Except.error.injEq] at he
      subst he
      obtain ⟨i, h1, h2⟩ := ih e' (by omega) hprev
      exact ⟨i, by omega, h2⟩
    | ok y =>
      rw [hprev] at he
      simp only [back_substitute_row_eq] at he
      by_cases hp : A ⟨n - 1 - m, by omega⟩ ⟨n - 1 - m, by omega⟩ = 0
      · simp only [hp, if_true, Except.error.injEq] at he
        refine ⟨⟨n - 1 - m, by omega⟩, by simp; omega, he.symm, hp, ?_⟩
        intro k hk
        exact (back_substitute_rows_spec A b m y (by omega) hprev k
          (by simp at hk; omega)).1
      · simp [hp] at he

/-- The vector that back substitution returns solves an upper-triangular system. -/
theorem back_substitution_solves {n : ℕ} (A : Matrix n) (b x : Vector n)
    (hA : upper_triangular A) (hx : back_substitution A b = .ok x) :
    operator_mul A x = b := by
  funext i
  obtain ⟨h1, h2⟩ := back_substitute_rows_spec A b n x (le_refl _) hx i (by omega)
  simp only [operator_mul]
  rw [dot_product_split (A i) x i (fun k hk => hA i k hk)]
  have h3 : x i * A i i = b i - dot_product_slice (i.val + 1) (A i) x := by
    rw [h2]; field_simp
  linarith

/-! ## Failures -/

/-- Once a pass of the outer loop has thrown, the exception is the outcome. -/
theorem eliminate_columns_error_mono {n : ℕ} (S : System n) (e : Failure) (m : ℕ)
    (h : eliminate_columns S m = .error e) :
    ∀ k : ℕ, eliminate_columns S (m + k) = .error e := by
  intro k
  induction k with
  | zero => exact h
  | succ k ih =>
    have : eliminate_columns S (m + k + 1) = .error e := by
      simp only [eliminate_columns, ih]
    exact this

/-- Once a pass of back substitution has thrown, the exception is the outcome. -/
theorem back_substitute_rows_error_mono {n : ℕ} (A : Matrix n) (b : Vector n) (e : Failure)
    (m : ℕ) (h : back_substitute_rows A b m = .error e) :
    ∀ k : ℕ, back_substitute_rows A b (m + k) = .error e := by
  intro k
  induction k with
  | zero => exact h
  | succ k ih =>
    have : back_substitute_rows A b (m + k + 1) = .error e := by
      simp only [back_substitute_rows, ih]
    exact this

/-- A failure of elimination is an `Elim_failure` at a row before the last one. -/
theorem eliminate_columns_error {n : ℕ} (S : System n) :
    ∀ (m : ℕ) (e : Failure), m ≤ n - 1 → eliminate_columns S m = .error e →
      ∃ j : ℕ, j < m ∧ e = .Elim_failure j := by
  intro m
  induction m with
  | zero => intro e _ he; simp [eliminate_columns] at he
  | succ m ih =>
    intro e hm he
    have h : m + 1 < n := by omega
    rw [eliminate_columns_succ S m h] at he
    cases hprev : eliminate_columns S m with
    | error e' =>
      rw [hprev] at he
      simp only [Except.error.injEq] at he
      subst he
      obtain ⟨j, hj, hje⟩ := ih e' (by omega) hprev
      exact ⟨j, by omega, hje⟩
    | ok T =>
      rw [hprev] at he
      by_cases hp : T.1 ⟨m, Nat.lt_of_succ_lt h⟩ ⟨m, Nat.lt_of_succ_lt h⟩ = 0
      · simp only [hp, if_true, Except.error.injEq] at he
        exact ⟨m, by omega, he.symm⟩
      · simp [hp] at he

/-! ## The whole solver -/

theorem classical_gaussian_elimination_ok {n : ℕ} (A : Matrix n) (b x : Vector n)
    (h : classical_gaussian_elimination A b = .ok x) :
    ∃ T : System n, classical_elimination A b = .ok T ∧ back_substitution T.1 T.2 = .ok x := by
  unfold classical_gaussian_elimination at h
  cases hT : classical_elimination A b with
  | error e => rw [hT] at h; simp at h
  | ok T => rw [hT] at h; exact ⟨T, rfl, h⟩

theorem classical_elimination_upper {n : ℕ} (A : Matrix n) (b : Vector n) (T : System n)
    (h : classical_elimination A b = .ok T) : upper_triangular T.1 := by
  intro i j hji
  have hs := (eliminate_columns_spec (A, b) (n - 1) T (le_refl _) h).1
  exact hs i j hji (by have := i.isLt; omega)

theorem classical_elimination_equiv {n : ℕ} (A : Matrix n) (b : Vector n) (T : System n)
    (h : classical_elimination A b = .ok T) (x : Vector n) :
    operator_mul A x = b ↔ operator_mul T.1 x = T.2 :=
  (eliminate_columns_spec (A, b) (n - 1) T (le_refl _) h).2.2 x

/-- A vector returned by the solver solves the caller's system. -/
theorem classical_gaussian_elimination_sound {n : ℕ} (A : Matrix n) (b x : Vector n)
    (h : classical_gaussian_elimination A b = .ok x) : operator_mul A x = b := by
  obtain ⟨T, hT, hx⟩ := classical_gaussian_elimination_ok A b x h
  exact (classical_elimination_equiv A b T hT x).mpr
    (back_substitution_solves T.1 T.2 x (classical_elimination_upper A b T hT) hx)

theorem classical_gaussian_elimination_error {n : ℕ} (A : Matrix n) (b : Vector n)
    (e : Failure) (h : classical_gaussian_elimination A b = .error e) :
    classical_elimination A b = .error e ∨
      ∃ T : System n, classical_elimination A b = .ok T ∧
        back_substitution T.1 T.2 = .error e := by
  unfold classical_gaussian_elimination at h
  cases hT : classical_elimination A b with
  | error e' =>
    rw [hT] at h
    simp only [Except.error.injEq] at h
    exact Or.inl (by rw [h])
  | ok T => rw [hT] at h; exact Or.inr ⟨T, rfl, h⟩

theorem dot_product_slice_eq_sum_filter {n : ℕ} (i : Fin n) (a x : Vector n) :
    dot_product_slice (i.val + 1) a x =
      ∑ k in Finset.univ.filter (fun k : Fin n => i.val < k.val), a k * x k := by
  simp only [dot_product_slice]
  rw [Finset.sum_filter]
  rfl

/-- Back substitution on an upper-triangular matrix with a nonzero diagonal returns
the solution, each entry given by the recurrence of the loop. -/
theorem back_substitution_complete {n : ℕ} (A : Matrix n) (b : Vector n)
    (hA : upper_triangular A) (hd : ∀ i : Fin n, A i i ≠ 0) :
    ∃ x : Vector n, back_substitution A b = .ok x ∧ operator_mul A x = b ∧
      ∀ i : Fin n, x i =
        (b i - ∑ k in Finset.univ.filter (fun k : Fin n => i.val < k.val), A i k * x k)
          / A i i := by
  obtain ⟨x, hx⟩ := back_substitute_rows_progress A b n (le_refl _) (fun i _ => hd i)
  refine ⟨x, hx, back_substitution_solves A b x hA hx, fun i => ?_⟩
  rw [← dot_product_slice_eq_sum_filter]
  exact (back_substitute_rows_spec A b n x (le_refl _) hx i (by omega)).2

/-! ## Elimination of a matrix that is already upper-triangular -/

theorem column_step_upper {n : ℕ} (j : Fin n) (T : System n) (hT : upper_triangular T.1) :
    column_step j T = T := by
  ext r k
  · simp only [column_step]
    by_cases h : j.val < r.val ∧ j.val ≤ k.val
    · rw [if_pos h, hT r j h.1]
      ring
    · rw [if_neg h]
  · simp only [column_step]
    by_cases h : j.val < r.val
    · rw [if_pos h, hT r j h]
      ring
    · rw [if_neg h]

/-- While the pivots are nonzero, elimination leaves an upper-triangular system as
it is. -/
theorem eliminate_columns_upper {n : ℕ} (S : System n) (hS : upper_triangular S.1) :
    ∀ m : ℕ, m ≤ n - 1 → (∀ r : Fin n, r.val < m → S.1 r r ≠ 0) →
      eliminate_columns S m = .ok S := by
  intro m
  induction m with
  | zero => intro _ _; rfl
  | succ m ih =>
    intro hm hd
    have h : m + 1 < n := by omega
    rw [eliminate_columns_succ S m h, ih (by omega) (fun r hr => hd r (by omega))]
    have hp := hd ⟨m, Nat.lt_of_succ_lt h⟩ (Nat.lt_succ_self m)
    simp only [hp, if_false, column_step_upper _ S hS]

/-- On an upper-triangular matrix with a zero on the diagonal the solver fails at the
first row whose diagonal entry is zero: in elimination when that row is not the last
one, in back substitution when it is. -/
theorem upper_zero_diagonal_outcome {n : ℕ} (A : Matrix n) (b : Vector n)
    (hA : upper_triangular A) (i : Fin n) (hi : A i i = 0)
    (hmin : ∀ k : Fin n, k.val < i.val → A k k ≠ 0) :
    (i.val + 1 < n ∧
        classical_gaussian_elimination A b = .error (.Elim_failure i.val)) ∨
      (i.val + 1 = n ∧
        classical_gaussian_elimination A b = .error (.Back_subst_failure i.val)) := by
  by_cases hlast : i.val + 1 < n
  · left
    refine ⟨hlast, ?_⟩
    have h1 : eliminate_columns (A, b) i.val = .ok (A, b) :=
      eliminate_columns_upper (A, b) hA i.val (by omega) hmin
    have h2 : eliminate_columns (A, b) (i.val + 1) = .error (.Elim_failure i.val) := by
      rw [eliminate_columns_succ (A, b) i.val hlast, h1]
      simp [hi]
    have h3 := eliminate_columns_error_mono (A, b) _ (i.val + 1) h2 (n - 1 - (i.val + 1))
    have h4 : i.val + 1 + (n - 1 - (i.val + 1)) = n - 1 := by omega
    rw [h4] at h3
    simp only [classical_gaussian_elimination, classical_elimination, h3]
  · right
    have hin : i.val + 1 = n := by have := i.isLt; omega
    refine ⟨hin, ?_⟩
    have h1 : classical_elimination A b = .ok (A, b) :=
      eliminate_columns_upper (A, b) hA (n - 1) (le_refl _) (fun r hr => hmin r (by omega))
    simp only [classical_gaussian_elimination, h1]
    cases hx : back_substitution A b with
    | ok x =>
      exact absurd hi (back_substitute_rows_spec A b n x (le_refl _) hx i (by omega)).1
    | error e =>
      obtain ⟨k, _, hke, hk0, _⟩ := back_substitute_rows_error A b n e (le_refl _) hx
      have hki : k.val = i.val := by
        have h5 : ¬ k.val < i.val := fun hlt => hmin k hlt hk0
        have := k.isLt
        omega
      rw [hke, hki]

/-! ## Strictly diagonally dominant matrices -/

theorem sum_split_off {n : ℕ} (f : Fin n → ℚ) (a : Fin n) :
    ∑ k : Fin n, f k = f a + ∑ k : Fin n, if k = a then 0 else f k := by
  have hf : ∀ k : Fin n, f k = (if k = a then f k else 0) + (if k = a then 0 else f k) := by
    intro k
    by_cases h : k = a
    · rw [if_pos h, if_pos h, add_zero]
    · rw [if_neg h, if_neg h, zero_add]
  calc ∑ k : Fin n, f k
      = ∑ k : Fin n, ((if k = a then f k else 0) + (if k = a then 0 else f k)) :=
        Finset.sum_congr rfl (fun k _ => hf k)
    _ = f a + ∑ k : Fin n, if k = a then 0 else f k := by
        rw [Finset.sum_add_distrib, Finset.sum_ite_eq' Finset.univ a f,
          if_pos (Finset.mem_univ a)]

theorem dominant_from_zero {n : ℕ} (A : Matrix n) (h : strictly_diagonally_dominant A) :
    dominant_from A 0 := by
  intro r _
  have hr := h r
  rw [Finset.sum_filter] at hr
  have he : (∑ k : Fin n, if 0 ≤ k.val ∧ k ≠ r then |A r k| else 0) =
      ∑ k : Fin n, if k ≠ r then |A r k| else 0 := by
    refine Finset.sum_congr rfl (fun k _ => ?_)
    by_cases hk : k ≠ r
    · rw [if_pos ⟨Nat.zero_le _, hk⟩, if_pos hk]
    · rw [if_neg (fun hh => hk hh.2), if_neg hk]
  rw [he]
  exact hr

theorem dominant_from_pivot {n : ℕ} (A : Matrix n) (m : ℕ) (h : dominant_from A m)
    (r : Fin n) (hr : m ≤ r.val) : A r r ≠ 0 := by
  have h1 := h r hr
  have h2 : (0 : ℚ) ≤ ∑ k : Fin n, if m ≤ k.val ∧ k ≠ r then |A r k| else 0 := by
    refine Finset.sum_nonneg (fun k _ => ?_)
    by_cases hk : m ≤ k.val ∧ k ≠ r
    · rw [if_pos hk]; exact abs_nonneg _
    · rw [if_neg hk]
  intro h0
  rw [h0, abs_zero] at h1
  linarith

/-- A pass of the outer loop keeps the rows that remain strictly diagonally dominant
within the columns that remain. -/
theorem column_step_dominant {n : ℕ} (j : Fin n) (T : System n)
    (hd : dominant_from T.1 j.val) :
    dominant_from (column_step j T).1 (j.val + 1) := by
  intro r hr
  have hjr : j.val < r.val := hr
  have hne : j ≠ r := fun hh => by rw [hh] at hjr; exact lt_irrefl _ hjr
  have hp : T.1 j j ≠ 0 := dominant_from_pivot T.1 j.val hd j (le_refl _)
  have hp' : |T.1 j j| ≠ 0 := abs_ne_zero.mpr hp
  -- the dominance of row `r`, with the entry of column `j` split off
  have h1 : |T.1 r j| + (∑ k : Fin n, if j.val + 1 ≤ k.val ∧ k ≠ r then |T.1 r k| else 0)
      < |T.1 r r| := by
    have h := hd r (le_of_lt hjr)
    rw [sum_split_off _ j, if_pos ⟨le_refl _, hne⟩] at h
    have he : (∑ k : Fin n, if k = j then 0
          else (if j.val ≤ k.val ∧ k ≠ r then |T.1 r k| else 0)) =
        ∑ k : Fin n, if j.val + 1 ≤ k.val ∧ k ≠ r then |T.1 r k| else 0 := by
      refine Finset.sum_congr rfl (fun k _ => ?_)
      by_cases hk : k = j
      · rw [if_pos hk, if_neg]
        rw [hk]; intro hh; omega
      · have hkv : k.val ≠ j.val := fun hh => hk (Fin.ext hh)
        rw [if_neg hk]
        by_cases hc : j.val + 1 ≤ k.val ∧ k ≠ r
        · rw [if_pos hc, if_pos ⟨by omega, hc.2⟩]
        · rw [if_neg hc, if_neg]
          intro hh; exact hc ⟨by omega, hh.2⟩
    rw [he] at h
    exact h
  -- the dominance of the pivot row, with the entry of column `r` split off
  have h2 : |T.1 j r| + (∑ k : Fin n, if j.val + 1 ≤ k.val ∧ k ≠ r then |T.1 j k| else 0)
      < |T.1 j j| := by
    have h := hd j (le_refl _)
    rw [sum_split_off _ r, if_pos ⟨le_of_lt hjr, fun hh => hne hh.symm⟩] at h
    have he : (∑ k : Fin n, if k = r then 0
          else (if j.val ≤ k.val ∧ k ≠ j then |T.1 j k| else 0)) =
        ∑ k : Fin n, if j.val + 1 ≤ k.val ∧ k ≠ r then |T.1 j k| else 0 := by
      refine Finset.sum_congr rfl (fun k _ => ?_)
      by_cases hk : k = r
      · rw [if_pos hk, if_neg]
        intro hh; exact hh.2 hk
      · rw [if_neg hk]
        by_cases hc : j.val + 1 ≤ k.val ∧ k ≠ r
        · have hkj : k ≠ j := fun hh => by rw [hh] at hc; omega
          rw [if_pos hc, if_pos ⟨by omega, hkj⟩]
        · rw [if_neg hc, if_neg]
          intro hh
          have hkv : k.val ≠ j.val := fun h' => hh.2 (Fin.ext h')
          exact hc ⟨by omega, hk⟩
    rw [he] at h
    exact h
  -- the new entries of row `r` are bounded term by term
  have h3 : (∑ k : Fin n, if j.val + 1 ≤ k.val ∧ k ≠ r
        then |(column_step j T).1 r k| else 0) ≤
      (∑ k : Fin n, if j.val + 1 ≤ k.val ∧ k ≠ r then |T.1 r k| else 0) +
        |T.1 r j / T.1 j j| *
          ∑ k : Fin n, if j.val + 1 ≤ k.val ∧ k ≠ r then |T.1 j k| else 0 := by
    rw [Finset.mul_sum, ← Finset.sum_add_distrib]
    refine Finset.sum_le_sum (fun k _ => ?_)
    by_cases hc : j.val + 1 ≤ k.val ∧ k ≠ r
    · rw [if_pos hc, if_pos hc, if_pos hc]
      have hk : (column_step j T).1 r k = T.1 r k - T.1 r j / T.1 j j * T.1 j k := by
        simp only [column_step]
        rw [if_pos ⟨hjr, by omega⟩]
      rw [hk, ← abs_mul]
      exact abs_sub _ _
    · rw [if_neg hc, if_neg hc, if_neg hc, mul_zero, add_zero]
  have h4 : |T.1 r j / T.1 j j| * |T.1 j j| = |T.1 r j| := by
    rw [abs_div, div_mul_cancel₀ _ hp']
  have h5 : |T.1 r r| - |T.1 r j / T.1 j j| * |T.1 j r| ≤ |(column_step j T).1 r r| := by
    have hk : (column_step j T).1 r r = T.1 r r - T.1 r j / T.1 j j * T.1 j r := by
      simp only [column_step]
      rw [if_pos ⟨hjr, le_of_lt hjr⟩]
    rw [hk, ← abs_mul]
    exact abs_sub_abs_le_abs_sub _ _
  have h6 : |T.1 r j / T.1 j j| *
        (∑ k : Fin n, if j.val + 1 ≤ k.val ∧ k ≠ r then |T.1 j k| else 0) ≤
      |T.1 r j / T.1 j j| * (|T.1 j j| - |T.1 j r|) :=
    mul_le_mul_of_nonneg_left (by linarith) (abs_nonneg _)
  have h7 : |T.1 r j / T.1 j j| * (|T.1 j j| - |T.1 j r|) =
      |T.1 r j| - |T.1 r j / T.1 j j| * |T.1 j r| := by
    rw [mul_sub, h4]
  linarith

/-- On a strictly diagonally dominant matrix elimination meets no zero pivot, and
leaves a matrix whose diagonal entries are all nonzero. -/
theorem classical_elimination_dominant {n : ℕ} (A : Matrix n) (b : Vector n)
    (h : strictly_diagonally_dominant A) :
    ∃ T : System n, classical_elimination A b = .ok T ∧ ∀ i : Fin n, T.1 i i ≠ 0 := by
  obtain ⟨T, hT, hdom⟩ := eliminate_columns_progress
    (fun m T => dominant_from T.1 m) (A, b) (dominant_from_zero A h)
    (fun m hm T hP _ => column_step_dominant ⟨m, Nat.lt_of_succ_lt hm⟩ T hP)
    (fun m hm T hP => dominant_from_pivot T.1 m hP ⟨m, Nat.lt_of_succ_lt hm⟩ (le_refl _))
    (n - 1) (le_refl _)
  refine ⟨T, hT, fun i => ?_⟩
  by_cases hi : i.val < n - 1
  · exact (eliminate_columns_spec (A, b) (n - 1) T (le_refl _) hT).2.1 i hi
  · exact dominant_from_pivot T.1 (n - 1) hdom i (by omega)

/-- On a strictly diagonally dominant matrix the solver returns a solution. -/
theorem classical_gaussian_elimination_dominant {n : ℕ} (A : Matrix n) (b : Vector n)
    (h : strictly_diagonally_dominant A) :
    ∃ x : Vector n, classical_gaussian_elimination A b = .ok x ∧ operator_mul A x = b := by
  obtain ⟨T, hT, hdiag⟩ := classical_elimination_dominant A b h
  obtain ⟨x, hx⟩ := back_substitute_rows_progress T.1 T.2 n (le_refl _) (fun i _ => hdiag i)
  have hg : classical_gaussian_elimination A b = .ok x := by
    simp only [classical_gaussian_elimination, hT]
    exact hx
  exact ⟨x, hg, classical_gaussian_elimination_sound A b x hg⟩

/-! ## What back substitution reads -/

theorem dot_product_slice_congr {n : ℕ} (s : ℕ) (a a' x : Vector n)
    (h : ∀ k : Fin n, s ≤ k.val → a k = a' k) :
    dot_product_slice s a x = dot_product_slice s a' x := by
  simp only [dot_product_slice]
  refine Finset.sum_congr rfl (fun k _ => ?_)
  by_cases hk : s ≤ k.val
  · rw [if_pos hk, if_pos hk, h k hk]
  · rw [if_neg hk, if_neg hk]

theorem back_substitute_row_congr {n : ℕ} (A A' : Matrix n) (b : Vector n)
    (h : ∀ i k : Fin n, i.val ≤ k.val → A i k = A' i k) (i : Fin n) (x : Vector n) :
    back_substitute_row A b i x = back_substitute_row A' b i x := by
  rw [back_substitute_row_eq, back_substitute_row_eq, h i i (le_refl _),
    dot_product_slice_congr (i.val + 1) (A i) (A' i) x (fun k hk => h i k (by omega))]

/-- Two matrices that agree on and above the diagonal take back substitution through
the same states. -/
theorem back_substitute_rows_congr {n : ℕ} (A A' : Matrix n) (b : Vector n)
    (h : ∀ i k : Fin n, i.val ≤ k.val → A i k = A' i k) :
    ∀ m : ℕ, m ≤ n → back_substitute_rows A b m = back_substitute_rows A' b m := by
  intro m
  induction m with
  | zero => intro _; rfl
  | succ m ih =>
    intro hm
    have hlt : m < n := by omega
    rw [back_substitute_rows_succ A b m hlt, back_substitute_rows_succ A' b m hlt,
      ih (by omega)]
    cases back_substitute_rows A' b m with
    | error e => rfl
    | ok x => exact back_substitute_row_congr A A' b h _ x

/-- A failure of the solver names a row before the last one when it comes from
elimination, and the last row when it comes from back substitution. -/
theorem classical_gaussian_elimination_failure_row {n : ℕ} (A : Matrix n) (b : Vector n)
    (e : Failure) (h : classical_gaussian_elimination A b = .error e) :
    (∃ j : ℕ, j + 2 ≤ n ∧ e = .Elim_failure j) ∨
      (1 ≤ n ∧ e = .Back_subst_failure (n - 1)) := by
  rcases classical_gaussian_elimination_error A b e h with h1 | ⟨T, hT, h2⟩
  · obtain ⟨j, hj, hje⟩ := eliminate_columns_error (A, b) (n - 1) e (le_refl _) h1
    exact Or.inl ⟨j, by omega, hje⟩
  · obtain ⟨i, _, hie, hi0, _⟩ := back_substitute_rows_error T.1 T.2 n e (le_refl _) h2
    have hd := (eliminate_columns_spec (A, b) (n - 1) T (le_refl _) hT).2.1 i
    have hi : i.val = n - 1 := by
      have := i.isLt
      by_contra hne
      exact hd (by omega) hi0
    exact Or.inr ⟨by have := i.isLt; omega, by rw [hie, hi]⟩

/-! ## The order of the row updates -/

theorem mem_rows_below {n : ℕ} (j i : Fin n) : i ∈ rows_below j ↔ j.val < i.val := by
  simp [rows_below, List.mem_filter, List.mem_finRange]

theorem nodup_rows_below {n : ℕ} (j : Fin n) : (rows_below j).Nodup :=
  (List.nodup_finRange n).filter _

/-- The row updates for column `j`, applied to the rows of a list without repetition
in the order of the list, update exactly the rows of the list, each from the state
the loop started in. -/
theorem eliminate_rows_in_order_eq {n : ℕ} (j : Fin n) {pivot : ℚ} (hp : pivot ≠ 0) :
    ∀ (l : List (Fin n)) (S : System n), l.Nodup → (∀ i ∈ l, j.val < i.val) →
      eliminate_rows_in_order j pivot S l =
        .ok (fun r k => if r ∈ l ∧ j.val ≤ k.val
              then S.1 r k - S.1 r j / pivot * S.1 j k else S.1 r k,
             fun r => if r ∈ l then S.2 r - S.1 r j / pivot * S.2 j else S.2 r) := by
  intro l
  induction l with
  | nil =>
    intro S _ _
    simp only [eliminate_rows_in_order, List.not_mem_nil, false_and, if_false]
  | cons i t ih =>
    intro S hnd hgt
    have hit : i ∉ t := (List.nodup_cons.mp hnd).1
    have hji : j.val < i.val := hgt i (List.mem_cons_self i t)
    have hjne : j ≠ i := fun hh => by rw [hh] at hji; exact lt_irrefl _ hji
    simp only [eliminate_rows_in_order, eliminate_row_of_ne j hp]
    rw [ih _ (List.nodup_cons.mp hnd).2 (fun r hr => hgt r (List.mem_cons_of_mem i hr))]
    congr 1
    ext r k
    · simp only [assign_slice, scale_and_add, List.mem_cons]
      by_cases hr : r = i
      · subst hr
        simp only [hit, false_and, if_false, true_or, true_and, hjne, and_self]
        by_cases hk : j.val ≤ k.val
        · rw [if_pos hk, if_pos hk]; ring
        · rw [if_neg hk, if_neg hk]
      · simp only [hr, false_and, if_false, false_or, hjne]
    · simp only [assign_slice, scale_and_add, List.mem_cons]
      by_cases hr : r = i
      · subst hr
        simp only [hit, if_false, true_or, if_true, Function.update_same]
      · simp only [hr, false_and, if_false, false_or, hjne, Function.update_noteq hr,
          Function.update_noteq hjne]

/-- The row updates for column `j` give the state of the inner loop whatever the
order in which the rows `j+1, ..., n-1` are taken. -/
theorem eliminate_rows_in_order_perm {n : ℕ} (j : Fin n) {pivot : ℚ} (hp : pivot ≠ 0)
    (S : System n) (l : List (Fin n)) (hl : l.Perm (rows_below j)) :
    eliminate_rows_in_order j pivot S l = eliminate_rows j pivot S (n - (j.val + 1)) := by
  have hmem : ∀ i : Fin n, i ∈ l ↔ j.val < i.val := fun i =>
    hl.mem_iff.trans (mem_rows_below j i)
  rw [eliminate_rows_in_order_eq j hp l S (hl.nodup_iff.mpr (nodup_rows_below j))
    (fun i hi => (hmem i).mp hi), eliminate_rows_eq j hp]
  congr 1
  ext r k
  · have h4 : (j.val < r.val ∧ r.val ≤ j.val + (n - (j.val + 1)) ∧ j.val ≤ k.val) ↔
        (j.val < r.val ∧ j.val ≤ k.val) := by
      have := r.isLt; omega
    simp only [rows_after, hmem, h4]
  · have h4 : (j.val < r.val ∧ r.val ≤ j.val + (n - (j.val + 1))) ↔ j.val < r.val := by
      have := r.isLt; omega
    simp only [rows_after, hmem, h4]

/-! ## Determinants and leading principal minors -/

theorem operator_mul_eq_mulVec {n : ℕ} (A : Matrix n) (x : Vector n) :
    operator_mul A x = Matrix.mulVec (Matrix.of A) x := rfl

theorem leading_minor_one {n : ℕ} (A : Matrix n) (h : 1 ≤ n) :
    leading_minor A 1 h = A ⟨0, h⟩ ⟨0, h⟩ := by
  simp only [leading_minor, Matrix.det_fin_one, Matrix.of_apply]
  rfl

theorem leading_minor_full {n : ℕ} (A : Matrix n) :
    leading_minor A n (le_refl n) = Matrix.det (Matrix.of A) := rfl

/-- A pass of the outer loop on a matrix whose earlier columns are zero below the
diagonal subtracts multiples of row `j` from later rows, which changes no leading
principal minor. -/
theorem leading_minor_column_step {n : ℕ} (j : Fin n) (T : System n)
    (hz : zero_below T.1 j.val) (k : ℕ) (hk : k ≤ n) :
    leading_minor (column_step j T).1 k hk = leading_minor T.1 k hk := by
  unfold leading_minor
  by_cases hjk : j.val < k
  · refine Matrix.det_eq_of_forall_row_eq_smul_add_const
      (fun i : Fin k => if j.val < i.val then -(T.1 (Fin.castLE hk i) j / T.1 j j) else 0)
      ⟨j.val, hjk⟩ (if_neg (lt_irrefl _)) ?_
    intro i c
    have hj : Fin.castLE hk ⟨j.val, hjk⟩ = j := Fin.ext rfl
    simp only [Matrix.of_apply, hj]
    by_cases hi : j.val < i.val
    · rw [if_pos hi, column_step_row j T hz (Fin.castLE hk i) (Fin.castLE hk c) hi]
      ring
    · rw [if_neg hi, (column_step_row_le j T (Fin.castLE hk i) (not_lt.mp hi)).1]
      ring
  · congr 1
    ext i c
    simp only [Matrix.of_apply]
    have hi : (Fin.castLE hk i).val ≤ j.val := by
      have := i.isLt
      simp only [Fin.coe_castLE]
      omega
    rw [(column_step_row_le j T (Fin.castLE hk i) hi).1]

/-- With the columns before `m` zero below the diagonal, a leading principal minor of
order at most `m+1` is the product of the diagonal entries. -/
theorem leading_minor_zero_below {n : ℕ} (A : Matrix n) (m : ℕ) (hz : zero_below A m)
    (k : ℕ) (hk : k ≤ n) (hkm : k ≤ m + 1) :
    leading_minor A k hk = ∏ i : Fin k, A (Fin.castLE hk i) (Fin.castLE hk i) := by
  unfold leading_minor
  rw [Matrix.det_of_upperTriangular]
  · rfl
  · intro i c hci
    have hci' : c.val < i.val := hci
    have := i.isLt
    exact hz (Fin.castLE hk i) (Fin.castLE hk c) hci' (by simp only [Fin.coe_castLE]; omega)

/-- Elimination changes no leading principal minor. -/
theorem eliminate_columns_minor {n : ℕ} (S : System n) (m : ℕ) (T : System n)
    (hm : m ≤ n - 1) (hT : eliminate_columns S m = .ok T) (k : ℕ) (hk : k ≤ n) :
    leading_minor T.1 k hk = leading_minor S.1 k hk := by
  have h := eliminate_columns_invariant
    (fun m T => zero_below T.1 m ∧
      ∀ (k : ℕ) (hk : k ≤ n), leading_minor T.1 k hk = leading_minor S.1 k hk)
    S ⟨fun i c _ hc => absurd hc (Nat.not_lt_zero _), fun _ _ => rfl⟩ ?_ m T hm hT
  · exact h.2 k hk
  · intro m h T ⟨hz, hmin⟩ hp
    refine ⟨column_step_zero_below ⟨m, Nat.lt_of_succ_lt h⟩ T hz hp, fun k hk => ?_⟩
    rw [leading_minor_column_step ⟨m, Nat.lt_of_succ_lt h⟩ T hz k hk]
    exact hmin k hk

theorem diagonal_ne_zero_of_minor {n : ℕ} (A : Matrix n) (m : ℕ) (hz : zero_below A m)
    (k : ℕ) (hk : k ≤ n) (hkm : k ≤ m + 1) (hmin : leading_minor A k hk ≠ 0)
    (i : Fin n) (hi : i.val < k) : A i i ≠ 0 := by
  rw [leading_minor_zero_below A m hz k hk hkm] at hmin
  have h := Finset.prod_ne_zero_iff.mp hmin ⟨i.val, hi⟩ (Finset.mem_univ _)
  have hc : Fin.castLE hk ⟨i.val, hi⟩ = i := Fin.ext rfl
  rw [hc] at h
  exact h

theorem minor_ne_zero_of_diagonal {n : ℕ} (A : Matrix n) (m : ℕ) (hz : zero_below A m)
    (k : ℕ) (hk : k ≤ n) (hkm : k ≤ m + 1) (hd : ∀ i : Fin n, i.val < k → A i i ≠ 0) :
    leading_minor A k hk ≠ 0 := by
  rw [leading_minor_zero_below A m hz k hk hkm]
  exact Finset.prod_ne_zero_iff.mpr
    (fun i _ => hd (Fin.castLE hk i) (by simp only [Fin.coe_castLE]; exact i.isLt))

/-- When the solver returns, every leading principal minor of `A` is nonzero. -/
theorem minors_ne_zero_of_ok {n : ℕ} (A : Matrix n) (b x : Vector n)
    (h : classical_gaussian_elimination A b = .ok x) (k : ℕ) (hk : k ≤ n) :
    leading_minor A k hk ≠ 0 := by
  obtain ⟨T, hT, hx⟩ := classical_gaussian_elimination_ok A b x h
  have hz := (eliminate_columns_spec (A, b) (n - 1) T (le_refl _) hT).1
  rw [← eliminate_columns_minor (A, b) (n - 1) T (le_refl _) hT k hk]
  exact minor_ne_zero_of_diagonal T.1 (n - 1) hz k hk (by omega)
    (fun i _ => (back_substitute_rows_spec T.1 T.2 n x (le_refl _) hx i (by omega)).1)

/-- When every leading principal minor of `A` of order at least one is nonzero, the
solver returns. -/
theorem ok_of_minors_ne_zero {n : ℕ} (A : Matrix n) (b : Vector n)
    (h : ∀ (k : ℕ) (hk : k ≤ n), 1 ≤ k → leading_minor A k hk ≠ 0) :
    ∃ x : Vector n, classical_gaussian_elimination A b = .ok x := by
  obtain ⟨T, hT, hz, hmin⟩ := eliminate_columns_progress
    (fun m T => zero_below T.1 m ∧
      ∀ (k : ℕ) (hk : k ≤ n), leading_minor T.1 k hk = leading_minor A k hk)
    (A, b) ⟨fun i c _ hc => absurd hc (Nat.not_lt_zero _), fun _ _ => rfl⟩
    (fun m hm T hP hp =>
      ⟨column_step_zero_below ⟨m, Nat.lt_of_succ_lt hm⟩ T hP.1 hp, fun k hk => by
        rw [leading_minor_column_step ⟨m, Nat.lt_of_succ_lt hm⟩ T hP.1 k hk]
        exact hP.2 k hk⟩)
    (fun m hm T hP =>
      diagonal_ne_zero_of_minor T.1 m hP.1 (m + 1) (by omega) (le_refl _)
        (by rw [hP.2 (m + 1) (by omega)]; exact h (m + 1) (by omega) (by omega))
        ⟨m, Nat.lt_of_succ_lt hm⟩ (Nat.lt_succ_self m))
    (n - 1) (le_refl _)
  have hd : ∀ i : Fin n, T.1 i i ≠ 0 := fun i =>
    diagonal_ne_zero_of_minor T.1 (n - 1) hz n (le_refl _) (by omega)
      (by
        rw [hmin n (le_refl _)]
        exact h n (le_refl _) (by have := i.isLt; omega))
      i i.isLt
  obtain ⟨x, hx⟩ := back_substitute_rows_progress T.1 T.2 n (le_refl _) (fun i _ => hd i)
  have hT' : classical_elimination A b = .ok T := hT
  refine ⟨x, ?_⟩
  simp only [classical_gaussian_elimination, hT']
  exact hx

/-- A failure in back substitution means that the determinant of `A` is zero. -/
theorem det_eq_zero_of_back_subst_failure {n : ℕ} (A : Matrix n) (b : Vector n) (i : ℕ)
    (h : classical_gaussian_elimination A b = .error (.Back_subst_failure i)) :
    Matrix.det (Matrix.of A) = 0 := by
  rcases classical_gaussian_elimination_error A b _ h with h1 | ⟨T, hT, h2⟩
  · obtain ⟨j, _, hj⟩ := eliminate_columns_error (A, b) (n - 1) _ (le_refl _) h1
    cases hj
  · obtain ⟨r, _, _, hr0, _⟩ := back_substitute_rows_error T.1 T.2 n _ (le_refl _) h2
    have hz := (eliminate_columns_spec (A, b) (n - 1) T (le_refl _) hT).1
    rw [← leading_minor_full, ← eliminate_columns_minor (A, b) (n - 1) T (le_refl _) hT n
      (le_refl _), leading_minor_zero_below T.1 (n - 1) hz n (le_refl _) (by omega)]
    refine Finset.prod_eq_zero (Finset.mem_univ r) ?_
    have hc : Fin.castLE (le_refl n) r = r := Fin.ext rfl
    rw [hc]
    exact hr0

/-- A vector returned by the solver is the only solution of the system. -/
theorem solution_unique_of_ok {n : ℕ} (A : Matrix n) (b x : Vector n)
    (h : classical_gaussian_elimination A b = .ok x) :
    Matrix.det (Matrix.of A) ≠ 0 ∧ ∀ y : Vector n, operator_mul A y = b → y = x := by
  have hdet : Matrix.det (Matrix.of A) ≠ 0 := by
    rw [← leading_minor_full]
    exact minors_ne_zero_of_ok A b x h n (le_refl _)
  refine ⟨hdet, fun y hy => ?_⟩
  have hx := classical_gaussian_elimination_sound A b x h
  rw [operator_mul_eq_mulVec] at hx hy
  have h0 : Matrix.mulVec (Matrix.of A) (y - x) = 0 := by
    rw [Matrix.mulVec_sub, hx, hy, sub_self]
  exact sub_eq_zero.mp (Matrix.eq_zero_of_mulVec_eq_zero hdet h0)

/-! ## The claims -/

/-- C1: for a matrix `A` that is strictly diagonally dominant by rows
(`|A(i,i)| > sum over k ≠ i of |A(i,k)|` in every row) and every vector `b`,
`classical_gaussian_elimination(A, b)` does not fail: it returns a vector `x` of
length `n` with `A·x = b`. -/
theorem C1_diagonally_dominant_system_solved {n : ℕ} (A : Matrix n) (b : Vector n)
    (hA : ∀ i : Fin n,
      (∑ k in Finset.univ.filter (fun k : Fin n => k ≠ i), |A i k|) < |A i i|) :
    ∃ x : Vector n, classical_gaussian_elimination A b = .ok x ∧ operator_mul A x = b :=
  classical_gaussian_elimination_dominant A b hA

/-- C1 at the strictly diagonally dominant `A = [[4,1],[2,5]]` with `b = [6,12]`,
where the solver returns `x = [1,2]`. -/
theorem C1_diagonally_dominant_system_solved_witness :
    classical_gaussian_elimination (n := 2) ![![4, 1], ![2, 5]] ![6, 12] = .ok ![1, 2] ∧
      ∃ x : Vector 2,
        classical_gaussian_elimination (n := 2) ![![4, 1], ![2, 5]] ![6, 12] = .ok x ∧
          operator_mul (n := 2) ![![4, 1], ![2, 5]] x = ![6, 12] :=
  ⟨by decide!,
   C1_diagonally_dominant_system_solved (n := 2) ![![4, 1], ![2, 5]] ![6, 12] (by decide!)⟩

/-- C2: whenever `classical_gaussian_elimination(A, b)` returns a vector `x`, that
vector satisfies the original system, `A·x = b`, for the caller's own `A` and `b`. -/
theorem C2_returned_vector_solves_system {n : ℕ} (A : Matrix n) (b x : Vector n)
    (h : classical_gaussian_elimination A b = .ok x) : operator_mul A x = b :=
  classical_gaussian_elimination_sound A b x h

/-- C2 at `A = [[2,1,1],[1,3,2],[1,0,0]]`, `b = [4,5,6]`: the solver returns
`x = [6,15,-23]`, and `A·x = [4,5,6]`. -/
theorem C2_returned_vector_solves_system_witness :
    classical_gaussian_elimination (n := 3) ![![2, 1, 1], ![1, 3, 2], ![1, 0, 0]] ![4, 5, 6]
        = .ok ![6, 15, -23] ∧
      operator_mul (n := 3) ![![2, 1, 1], ![1, 3, 2], ![1, 0, 0]] ![6, 15, -23] = ![4, 5, 6] :=
  ⟨by decide!,
   C2_returned_vector_solves_system (n := 3) ![![2, 1, 1], ![1, 3, 2], ![1, 0, 0]] ![4, 5, 6]
     ![6, 15, -23] (by decide!)⟩

/-- C3: for `n ≥ 2` and `A(0,0) = 0`, `classical_elimination(A, b)` and with it
`classical_gaussian_elimination(A, b)` fail with `Elim_failure` at row 0, whatever
the rest of `A` and `b` are. -/
theorem C3_zero_first_pivot_fails {n : ℕ} (hn : 2 ≤ n) (A : Matrix n) (b : Vector n)
    (h0 : A ⟨0, by omega⟩ ⟨0, by omega⟩ = 0) :
    classical_elimination A b = .error (.Elim_failure 0) ∧
      classical_gaussian_elimination A b = .error (.Elim_failure 0) := by
  have h1 : eliminate_columns (A, b) (0 + 1) = .error (.Elim_failure 0) := by
    rw [eliminate_columns_succ (A, b) 0 (by omega)]
    simp [eliminate_columns, h0]
  have h2 : classical_elimination A b = .error (.Elim_failure 0) := by
    have := eliminate_columns_error_mono (A, b) _ 1 h1 (n - 2)
    have hn2 : 1 + (n - 2) = n - 1 := by omega
    rw [hn2] at this
    exact this
  exact ⟨h2, by simp [classical_gaussian_elimination, h2]⟩

/-- C3 at `A = [[0,1],[1,0]]`, `b = [1,1]`: the system has the solution `x = [1,1]`,
and the outcome is the elimination failure at row 0. -/
theorem C3_zero_first_pivot_fails_witness :
    operator_mul (n := 2) ![![0, 1], ![1, 0]] ![1, 1] = ![1, 1] ∧
      classical_elimination (n := 2) ![![0, 1], ![1, 0]] ![1, 1]
        = .error (.Elim_failure 0) ∧
      classical_gaussian_elimination (n := 2) ![![0, 1], ![1, 0]] ![1, 1]
        = .error (.Elim_failure 0) :=
  ⟨by decide!,
   C3_zero_first_pivot_fails (n := 2) (le_refl 2) ![![0, 1], ![1, 0]] ![1, 1] (by decide!)⟩

/-- C4, against the claim as stated: `A = [[0,1],[0,1]]` is upper-triangular with a
zero on its diagonal, and with `b = [3,0]` the solver fails with `Elim_failure` at row
0, not with `Back_subst_failure`. -/
theorem C4_counterexample :
    (∀ i j : Fin 2, j.val < i.val → (![![0, 1], ![0, 1]] : Matrix 2) i j = 0) ∧
      (∃ i : Fin 2, (![![0, 1], ![0, 1]] : Matrix 2) i i = 0) ∧
      classical_gaussian_elimination (n := 2) ![![0, 1], ![0, 1]] ![3, 0]
        = .error (.Elim_failure 0) ∧
      ¬ ∃ i : ℕ, classical_gaussian_elimination (n := 2) ![![0, 1], ![0, 1]] ![3, 0]
        = .error (.Back_subst_failure i) := by
  have h : classical_gaussian_elimination (n := 2) ![![0, 1], ![0, 1]] ![3, 0]
      = .error (.Elim_failure 0) := by decide!
  refine ⟨by decide!, ⟨0, by decide!⟩, h, ?_⟩
  rintro ⟨i, hi⟩
  rw [h] at hi
  cases hi

/-- C4, amended: on an upper-triangular `A` with a zero on its diagonal the solver
fails, and the row it reports is the first row `i` with `A(i,i) = 0`: the failure is
`Elim_failure` when that row is not the last one, and `Back_subst_failure` when it is
the last row `n-1`. -/
theorem C4_triangular_zero_diagonal_fails {n : ℕ} (A : Matrix n) (b : Vector n)
    (hA : ∀ i j : Fin n, j.val < i.val → A i j = 0) (hz : ∃ i : Fin n, A i i = 0) :
    ∃ i : Fin n, A i i = 0 ∧ (∀ k : Fin n, k.val < i.val → A k k ≠ 0) ∧
      ((i.val + 1 < n ∧
          classical_gaussian_elimination A b = .error (.Elim_failure i.val)) ∨
        (i.val + 1 = n ∧
          classical_gaussian_elimination A b = .error (.Back_subst_failure i.val))) := by
  classical
  have hex : ∃ k : ℕ, ∃ h : k < n, A ⟨k, h⟩ ⟨k, h⟩ = 0 := by
    obtain ⟨i, hi⟩ := hz
    exact ⟨i.val, i.isLt, hi⟩
  obtain ⟨h0, hi0⟩ := Nat.find_spec hex
  have hmin : ∀ k : Fin n, k.val < Nat.find hex → A k k ≠ 0 := by
    intro k hk hAk
    exact Nat.find_min hex hk ⟨k.isLt, hAk⟩
  exact ⟨⟨Nat.find hex, h0⟩, hi0, hmin,
    upper_zero_diagonal_outcome A b hA ⟨Nat.find hex, h0⟩ hi0 hmin⟩

/-- C4 at `A = [[1,2],[0,0]]`, `b = [3,0]`: the first zero of the diagonal is in the
last row, and the solver fails with the back-substitution failure at row 1. -/
theorem C4_triangular_zero_diagonal_fails_witness :
    classical_gaussian_elimination (n := 2) ![![1, 2], ![0, 0]] ![3, 0]
        = .error (.Back_subst_failure 1) ∧
      ∃ i : Fin 2, (![![1, 2], ![0, 0]] : Matrix 2) i i = 0 ∧
        (∀ k : Fin 2, k.val < i.val → (![![1, 2], ![0, 0]] : Matrix 2) k k ≠ 0) ∧
        ((i.val + 1 < 2 ∧
            classical_gaussian_elimination (n := 2) ![![1, 2], ![0, 0]] ![3, 0]
              = .error (.Elim_failure i.val)) ∨
          (i.val + 1 = 2 ∧
            classical_gaussian_elimination (n := 2) ![![1, 2], ![0, 0]] ![3, 0]
              = .error (.Back_subst_failure i.val))) :=
  ⟨by decide!,
   C4_triangular_zero_diagonal_fails (n := 2) ![![1, 2], ![0, 0]] ![3, 0]
     (by decide!) ⟨1, by decide!⟩⟩

/-- C5: `back_substitution(A, b)` fails if and only if some diagonal entry of `A` is
zero, and when it fails the failure is `Back_subst_failure` at the largest row `i`
with `A(i,i) = 0`. -/
theorem C5_back_substitution_failure {n : ℕ} (A : Matrix n) (b : Vector n) :
    ((∃ e, back_substitution A b = .error e) ↔ ∃ i : Fin n, A i i = 0) ∧
      ∀ e, back_substitution A b = .error e →
        ∃ i : Fin n, e = .Back_subst_failure i.val ∧ A i i = 0 ∧
          ∀ k : Fin n, A k k = 0 → k.val ≤ i.val := by
  have herr : ∀ e, back_substitution A b = .error e →
      ∃ i : Fin n, e = .Back_subst_failure i.val ∧ A i i = 0 ∧
        ∀ k : Fin n, A k k = 0 → k.val ≤ i.val := by
    intro e he
    obtain ⟨i, _, h2, h3, h4⟩ := back_substitute_rows_error A b n e (le_refl _) he
    refine ⟨i, h2, h3, fun k hk => ?_⟩
    by_contra hlt
    exact h4 k (by omega) hk
  refine ⟨⟨?_, ?_⟩, herr⟩
  · rintro ⟨e, he⟩
    obtain ⟨i, _, hi, _⟩ := herr e he
    exact ⟨i, hi⟩
  · rintro ⟨i, hi⟩
    cases hx : back_substitution A b with
    | error e => exact ⟨e, rfl⟩
    | ok x =>
      exact absurd hi (back_substitute_rows_spec A b n x (le_refl _) hx i (by omega)).1

/-- C6: if `classical_elimination(A, b)` completes without failure, the matrix it
leaves is upper-triangular: `A'(i,j) = 0` for all `j < i`. -/
theorem C6_elimination_gives_upper_triangular {n : ℕ} (A : Matrix n) (b : Vector n)
    (A' : Matrix n) (b' : Vector n) (h : classical_elimination A b = .ok (A', b')) :
    ∀ i j : Fin n, j.val < i.val → A' i j = 0 :=
  classical_elimination_upper A b (A', b') h

/-- C6 at `A = [[2,1,1],[1,3,2],[1,0,0]]`, `b = [4,5,6]`: elimination leaves
`[[2,1,1],[0,5/2,3/2],[0,0,-1/5]]` and `[4,3,23/5]`. -/
theorem C6_elimination_gives_upper_triangular_witness :
    classical_elimination (n := 3) ![![2, 1, 1], ![1, 3, 2], ![1, 0, 0]] ![4, 5, 6]
        = .ok (![![2, 1, 1], ![0, 5 / 2, 3 / 2], ![0, 0, -1 / 5]], ![4, 3, 23 / 5]) ∧
      ∀ i j : Fin 3, j.val < i.val →
        (![![2, 1, 1], ![0, 5 / 2, 3 / 2], ![0, 0, -1 / 5]] : Matrix 3) i j = 0 :=
  ⟨by decide!,
   C6_elimination_gives_upper_triangular (n := 3) ![![2, 1, 1], ![1, 3, 2], ![1, 0, 0]]
     ![4, 5, 6] ![![2, 1, 1], ![0, 5 / 2, 3 / 2], ![0, 0, -1 / 5]] ![4, 3, 23 / 5]
     (by decide!)⟩

/-- C7: `classical_elimination` preserves the solution set: when it completes,
producing `(A', b')`, a vector `x` satisfies `A·x = b` if and only if it satisfies
`A'·x = b'`. -/
theorem C7_elimination_preserves_solutions {n : ℕ} (A : Matrix n) (b : Vector n)
    (A' : Matrix n) (b' : Vector n) (h : classical_elimination A b = .ok (A', b'))
    (x : Vector n) : operator_mul A x = b ↔ operator_mul A' x = b' :=
  classical_elimination_equiv A b (A', b') h x

/-- C7 at `A = [[2,1],[4,5]]`, `b = [3,9]`, which elimination turns into
`[[2,1],[0,3]]`, `[3,3]`, and the vector `x = [1,1]`. -/
theorem C7_elimination_preserves_solutions_witness :
    classical_elimination (n := 2) ![![2, 1], ![4, 5]] ![3, 9]
        = .ok (![![2, 1], ![0, 3]], ![3, 3]) ∧
      (operator_mul (n := 2) ![![2, 1], ![4, 5]] ![1, 1] = ![3, 9] ↔
        operator_mul (n := 2) ![![2, 1], ![0, 3]] ![1, 1] = ![3, 3]) :=
  ⟨by decide!,
   C7_elimination_preserves_solutions (n := 2) ![![2, 1], ![4, 5]] ![3, 9]
     ![![2, 1], ![0, 3]] ![3, 3] (by decide!) ![1, 1]⟩

/-- C8: for an upper-triangular `A` whose diagonal entries are all nonzero,
`back_substitution(A, b)` returns a vector `x` with `A·x = b`, each entry being
`x(i) = (b(i) - sum over k from i+1 to n-1 of A(i,k)·x(k)) / A(i,i)`. -/
theorem C8_back_substitution_solves_triangular {n : ℕ} (A : Matrix n) (b : Vector n)
    (hA : ∀ i j : Fin n, j.val < i.val → A i j = 0) (hd : ∀ i : Fin n, A i i ≠ 0) :
    ∃ x : Vector n, back_substitution A b = .ok x ∧ operator_mul A x = b ∧
      ∀ i : Fin n, x i =
        (b i - ∑ k in Finset.univ.filter (fun k : Fin n => i.val < k.val), A i k * x k)
          / A i i :=
  back_substitution_complete A b hA hd

/-- C8 at the upper-triangular `A = [[2,1],[0,3]]`, `b = [3,3]`, where back
substitution returns `x = [1,1]`. -/
theorem C8_back_substitution_solves_triangular_witness :
    back_substitution (n := 2) ![![2, 1], ![0, 3]] ![3, 3] = .ok ![1, 1] ∧
      ∃ x : Vector 2, back_substitution (n := 2) ![![2, 1], ![0, 3]] ![3, 3] = .ok x ∧
        operator_mul (n := 2) ![![2, 1], ![0, 3]] x = ![3, 3] ∧
        ∀ i : Fin 2, x i =
          (![3, 3] i - ∑ k in Finset.univ.filter (fun k : Fin 2 => i.val < k.val),
            (![![2, 1], ![0, 3]] : Matrix 2) i k * x k) / (![![2, 1], ![0, 3]] : Matrix 2) i i :=
  ⟨by decide!,
   C8_back_substitution_solves_triangular (n := 2) ![![2, 1], ![0, 3]] ![3, 3]
     (by decide!) (by decide!)⟩

/-- C9: on a 1×1 system `A = [[a]]`, `b = [c]` with `a ≠ 0` the solver makes no
elimination step, elimination leaving `A` and `b` as they are, and returns exactly
`x = [c/a]`. -/
theorem C9_one_by_one_system (A : Matrix 1) (b : Vector 1) (ha : A 0 0 ≠ 0) :
    classical_elimination A b = .ok (A, b) ∧
      classical_gaussian_elimination A b = .ok (fun _ => b 0 / A 0 0) := by
  have h1 : classical_elimination A b = .ok (A, b) := rfl
  refine ⟨h1, ?_⟩
  have h2 : dot_product_slice (n := 1) 1 (A 0) (fun _ => 0) = 0 := by
    simp [dot_product_slice]
  have h3 : back_substitution A b = .ok (fun _ => b 0 / A 0 0) := by
    show back_substitute_rows A b 1 = _
    rw [back_substitute_rows_succ A b 0 (by omega)]
    simp only [back_substitute_rows, back_substitute_row_eq]
    have h00 : (⟨1 - 1 - 0, by omega⟩ : Fin 1) = 0 := rfl
    rw [h00, if_neg ha]
    congr 1
    funext k
    have hk : k = 0 := Subsingleton.elim _ _
    subst hk
    rw [Function.update_same]
    have h2b : dot_product_slice (n := 1) (1 - 1 - 0 + 1) (A 0) (fun _ => 0) = 0 := h2
    rw [h2b, sub_zero]
  simp only [classical_gaussian_elimination, h1, h3]

/-- C9 at `A = [[5]]`, `b = [10]`: the solver returns `x = [2]`. -/
theorem C9_one_by_one_system_witness :
    classical_gaussian_elimination (n := 1) ![![5]] ![10] = .ok ![2] ∧
      classical_elimination (n := 1) ![![5]] ![10] = .ok (![![5]], ![10]) ∧
      classical_gaussian_elimination (n := 1) ![![5]] ![10]
        = .ok (fun _ => (![10] : Vector 1) 0 / (![![5]] : Matrix 1) 0 0) :=
  ⟨by decide!, C9_one_by_one_system ![![5]] ![10] (by decide!)⟩

/-- C11: if `classical_gaussian_elimination(A, b)` fails with `Back_subst_failure`,
then `A` is singular: its determinant is zero. -/
theorem C11_back_subst_failure_means_singular {n : ℕ} (A : Matrix n) (b : Vector n)
    (i : ℕ) (h : classical_gaussian_elimination A b = .error (.Back_subst_failure i)) :
    Matrix.det (Matrix.of A) = 0 :=
  det_eq_zero_of_back_subst_failure A b i h

/-- C11 at `A = [[1,2],[0,0]]`, `b = [3,0]`, which fails in back substitution at row 1
and has determinant zero. -/
theorem C11_back_subst_failure_means_singular_witness :
    classical_gaussian_elimination (n := 2) ![![1, 2], ![0, 0]] ![3, 0]
        = .error (.Back_subst_failure 1) ∧
      Matrix.det (Matrix.of (![![1, 2], ![0, 0]] : Matrix 2)) = 0 :=
  ⟨by decide!,
   C11_back_subst_failure_means_singular (n := 2) ![![1, 2], ![0, 0]] ![3, 0] 1
     (by decide!)⟩

/-- C13: at a pivot column `j` with a nonzero pivot the row updates of
`classical_elimination` for the rows `j+1, ..., n-1` do not depend on their order:
applied in the order of any permutation of these rows they leave the same matrix and
the same vector as the increasing order of the loop. -/
theorem C13_row_updates_order_independent {n : ℕ} (j : Fin n) (S : System n)
    (hp : S.1 j j ≠ 0) (l : List (Fin n)) (hl : l.Perm (rows_below j)) :
    eliminate_rows_in_order j (S.1 j j) S l
      = eliminate_rows j (S.1 j j) S (n - (j.val + 1)) :=
  eliminate_rows_in_order_perm j hp S l hl

/-- C13 at column `0` of `A = [[2,1,1],[1,3,2],[1,0,0]]`, `b = [4,5,6]`, with the rows
taken in decreasing order, row 2 before row 1. -/
theorem C13_row_updates_order_independent_witness :
    rows_below (n := 3) 0 = [1, 2] ∧
      eliminate_rows_in_order (n := 3) 0 2
          (![![2, 1, 1], ![1, 3, 2], ![1, 0, 0]], ![4, 5, 6]) [2, 1]
        = .ok (![![2, 1, 1], ![0, 5 / 2, 3 / 2], ![0, -1 / 2, -1 / 2]], ![4, 3, 4]) ∧
      eliminate_rows_in_order (n := 3) 0
          ((![![2, 1, 1], ![1, 3, 2], ![1, 0, 0]] : Matrix 3) 0 0)
          (![![2, 1, 1], ![1, 3, 2], ![1, 0, 0]], ![4, 5, 6]) [2, 1]
        = eliminate_rows (n := 3) 0 ((![![2, 1, 1], ![1, 3, 2], ![1, 0, 0]] : Matrix 3) 0 0)
            (![![2, 1, 1], ![1, 3, 2], ![1, 0, 0]], ![4, 5, 6]) (3 - ((0 : Fin 3).val + 1)) :=
  ⟨by decide!, by decide!,
   C13_row_updates_order_independent (n := 3) 0
     (![![2, 1, 1], ![1, 3, 2], ![1, 0, 0]], ![4, 5, 6]) (by decide!) [2, 1] (by decide!)⟩

/-- C14: `classical_gaussian_elimination(A, b)` returns a solution if and only if
every leading principal minor of `A`, of the orders 1 to `n`, is nonzero; whether it
returns or fails does not depend on `b`. -/
theorem C14_success_iff_leading_minors_nonzero {n : ℕ} (A : Matrix n) (b : Vector n) :
    ((∃ x : Vector n, classical_gaussian_elimination A b = .ok x) ↔
        ∀ (k : ℕ) (hk : k ≤ n), 1 ≤ k → leading_minor A k hk ≠ 0) ∧
      ∀ b' : Vector n, (∃ x : Vector n, classical_gaussian_elimination A b = .ok x) ↔
        ∃ x' : Vector n, classical_gaussian_elimination A b' = .ok x' := by
  have hiff : ∀ c : Vector n, (∃ x : Vector n, classical_gaussian_elimination A c = .ok x) ↔
      ∀ (k : ℕ) (hk : k ≤ n), 1 ≤ k → leading_minor A k hk ≠ 0 := by
    intro c
    constructor
    · rintro ⟨x, hx⟩ k hk _
      exact minors_ne_zero_of_ok A c x hx k hk
    · intro h
      exact ok_of_minors_ne_zero A c h
  exact ⟨hiff b, fun b' => (hiff b).trans (hiff b').symm⟩

/-- C15: if `classical_gaussian_elimination(A, b)` returns `x`, then `A` is
nonsingular, its determinant being nonzero, and `x` is the only solution: every
vector `y` with `A·y = b` equals `x`. -/
theorem C15_returned_solution_is_unique {n : ℕ} (A : Matrix n) (b x : Vector n)
    (h : classical_gaussian_elimination A b = .ok x) :
    Matrix.det (Matrix.of A) ≠ 0 ∧ ∀ y : Vector n, operator_mul A y = b → y = x :=
  solution_unique_of_ok A b x h

/-- C15 at `A = [[2,1,1],[1,3,2],[1,0,0]]`, `b = [4,5,6]`, where the solver returns
`x = [6,15,-23]`. -/
theorem C15_returned_solution_is_unique_witness :
    classical_gaussian_elimination (n := 3) ![![2, 1, 1], ![1, 3, 2], ![1, 0, 0]] ![4, 5, 6]
        = .ok ![6, 15, -23] ∧
      (Matrix.det (Matrix.of (![![2, 1, 1], ![1, 3, 2], ![1, 0, 0]] : Matrix 3)) ≠ 0 ∧
        ∀ y : Vector 3,
          operator_mul (n := 3) ![![2, 1, 1], ![1, 3, 2], ![1, 0, 0]] y = ![4, 5, 6] →
            y = ![6, 15, -23]) :=
  ⟨by decide!,
   C15_returned_solution_is_unique (n := 3) ![![2, 1, 1], ![1, 3, 2], ![1, 0, 0]]
     ![4, 5, 6] ![6, 15, -23] (by decide!)⟩

/-- C16: the row carried by a failure of `classical_gaussian_elimination` on an
`n × n` system is fixed by the kind of failure: an `Elim_failure` names a row `j` with
`0 ≤ j ≤ n-2`, and a `Back_subst_failure` names exactly row `n-1`. -/
theorem C16_failure_row_by_kind {n : ℕ} (A : Matrix n) (b : Vector n) (e : Failure)
    (h : classical_gaussian_elimination A b = .error e) :
    (∃ j : ℕ, j + 2 ≤ n ∧ e = .Elim_failure j) ∨
      (1 ≤ n ∧ e = .Back_subst_failure (n - 1)) :=
  classical_gaussian_elimination_failure_row A b e h

/-- C16 at `A = [[1,2],[0,0]]`, `b = [3,0]`, which fails in back substitution at row
`1 = n-1`. -/
theorem C16_failure_row_by_kind_witness :
    classical_gaussian_elimination (n := 2) ![![1, 2], ![0, 0]] ![3, 0]
        = .error (.Back_subst_failure 1) ∧
      ((∃ j : ℕ, j + 2 ≤ 2 ∧ Failure.Back_subst_failure 1 = .Elim_failure j) ∨
        (1 ≤ 2 ∧ Failure.Back_subst_failure 1 = .Back_subst_failure (2 - 1))) :=
  ⟨by decide!,
   C16_failure_row_by_kind (n := 2) ![![1, 2], ![0, 0]] ![3, 0] _ (by decide!)⟩

/-- C17: `back_substitution` reads only the diagonal of `A` and the entries above it:
two matrices that agree at every `(i,k)` with `i ≤ k` give the same outcome for every
`b`, the same vector or the same failure. -/
theorem C17_back_substitution_ignores_lower_part {n : ℕ} (A A' : Matrix n) (b : Vector n)
    (h : ∀ i k : Fin n, i.val ≤ k.val → A i k = A' i k) :
    back_substitution A b = back_substitution A' b :=
  back_substitute_rows_congr A A' b h n (le_refl _)

/-- C17 at `A = [[2,1],[0,3]]` and `A' = [[2,1],[7,3]]`, which differ below the
diagonal only, with `b = [3,3]`: both calls return `[1,1]`. -/
theorem C17_back_substitution_ignores_lower_part_witness :
    back_substitution (n := 2) ![![2, 1], ![7, 3]] ![3, 3] = .ok ![1, 1] ∧
      back_substitution (n := 2) ![![2, 1], ![0, 3]] ![3, 3]
        = back_substitution (n := 2) ![![2, 1], ![7, 3]] ![3, 3] :=
  ⟨by decide!,
   C17_back_substitution_ignores_lower_part (n := 2) ![![2, 1], ![0, 3]]
     ![![2, 1], ![7, 3]] ![3, 3] (by decide!)⟩

end Chapter24
